import Mathlib

/-!
Verification of the Hyperion DMX node client (`src/main.py`).

The development shallowly embeds the core of `run_dmx_client` and its
helpers:

* `decode` — the inline binary-frame handling of lines 210–232
  (`int.from_bytes(message[0:2], 'big')`, `message[2:]`, right-padding
  with zeros up to 512 values);
* `resolveChannel` / `handleMessage` / `run` — the universe registry
  (`universe_channels` dict) and per-message dispatch loop;
* `get_subnet_broadcast` — line 56–67, including a model of CPython's
  `ipaddress.IPv4Network(f"{ip}/24", strict=False).broadcast_address`
  restricted to the dotted-quad inputs that reach it;
* `effectiveTarget` / `artnetTarget` — the broadcast fix-up of lines
  180–188 and the `config.get("artnet_ip", "255.255.255.255")` default;
* `mkUri` — the streaming URI construction of lines 198–199, with
  `replaceAll` modelling Python `str.replace`;
* `streamStep` / `runStream` — the reconnect state machine of the
  `while True` / `try` / `except` loop (lines 203–244).

Bytes are modelled as `Nat` values (really 0–255; theorems that need the
bound take it as a hypothesis).
-/

/-- Big-endian value of a byte list, as computed by `int.from_bytes(_, 'big')`. -/
def beU16 (l : List Nat) : Nat :=
  l.foldl (fun a b => 256 * a + b) 0

/-- The frame decoder inlined in `run_dmx_client` (lines 210–232): messages of
length ≤ 2 are ignored; otherwise the first two bytes are the big-endian
universe id, the rest are channel values, right-padded with zeros to 512
when shorter (and left untouched when 512 or longer — the code has no
truncation branch). -/
def decode (msg : List Nat) : Option (Nat × List Nat) :=
  if 2 < msg.length then
    let u_id := beU16 (msg.take 2)
    let dmx_values := msg.drop 2
    let frame :=
      if dmx_values.length < 512 then
        dmx_values ++ List.replicate (512 - dmx_values.length) 0
      else
        dmx_values
    some (u_id, frame)
  else
    none

/-- A websocket message: binary frame or text frame. -/
inductive WsMessage
  | binary (bytes : List Nat)
  | text (s : String)
deriving DecidableEq

/-- State of the ArtNet engine inside `run_dmx_client`: the
`universe_channels` dict (modelled as an association list from universe id
to an opaque handle), a fresh-handle counter, and observation logs of
universe-output creations (`node.add_universe` / `universe.add_channel`,
recorded as (universe, start, width)) and of pushes
(`universe_channels[u_id].set_values(...)`, recorded as (universe, values)). -/
structure EngineState where
  channels : List (Nat × Nat)
  nextHandle : Nat
  creations : List (Nat × Nat × Nat)
  pushes : List (Nat × List Nat)
deriving DecidableEq

/-- The engine state at the start of `run_dmx_client` (empty dict, no
side effects yet). -/
def initState : EngineState :=
  { channels := [], nextHandle := 0, creations := [], pushes := [] }

/-- Association-list lookup for the `universe_channels` dict. -/
def chanLookup (u : Nat) : List (Nat × Nat) → Option Nat
  | [] => none
  | (v, h) :: rest => if v = u then some h else chanLookup u rest

/-- Lines 222–228: `if u_id not in universe_channels:` create the universe
output (`start=1, width=512`) and cache the handle; otherwise reuse the
cached one. Returns the handle together with the updated state. -/
def resolveChannel (s : EngineState) (u : Nat) : Nat × EngineState :=
  match chanLookup u s.channels with
  | some h => (h, s)
  | none =>
    (s.nextHandle,
      { channels := (u, s.nextHandle) :: s.channels
        nextHandle := s.nextHandle + 1
        creations := s.creations ++ [(u, 1, 512)]
        pushes := s.pushes })

/-- Per-message dispatch (lines 208–237): binary messages of length > 2 are
decoded, their universe resolved, and the padded values pushed; short
binary messages and text messages change nothing (text is only logged). -/
def handleMessage (s : EngineState) (m : WsMessage) : EngineState :=
  match m with
  | .binary msg =>
    match decode msg with
    | some (u, frame) =>
      let s1 := (resolveChannel s u).2
      { s1 with pushes := s1.pushes ++ [(u, frame)] }
    | none => s
  | .text _ => s

/-- Processing of a whole sequence of received messages within one
connection (the `async for message in websocket` loop). -/
def run (s : EngineState) (msgs : List WsMessage) : EngineState :=
  msgs.foldl handleMessage s

/-- The push a single message contributes, determined by the message alone:
this is what arrival-order preservation is stated against. -/
def msgPush (m : WsMessage) : Option (Nat × List Nat) :=
  match m with
  | .binary msg => decode msg
  | .text _ => none

/-- Number of universe outputs created so far for universe `u`. -/
def countCreated (u : Nat) (s : EngineState) : Nat :=
  ((s.creations).filter (fun e => e.1 == u)).length

/-- Registry invariant: a universe absent from the dict has never been
created, and no universe is ever created twice. -/
def RegInv (s : EngineState) : Prop :=
  ∀ u, (chanLookup u s.channels = none → countCreated u s = 0) ∧ countCreated u s ≤ 1


/-! ### Subnet broadcast computation (`get_subnet_broadcast`, lines 56–67)

The Python function delegates parsing to
`ipaddress.IPv4Network(f"{ip}/24", strict=False)`. For the strings that can
reach it, CPython accepts exactly a dotted quad of four octet strings, each
a non-empty run of at most three ASCII digits with no leading zero and
value at most 255, and renders the broadcast address back in the same
canonical decimal form. The parser below models that behaviour. -/

/-- ASCII digit test (CPython `isascii() and isdigit()` on one character). -/
def isDigitChar (c : Char) : Bool :=
  decide (48 ≤ c.toNat) && decide (c.toNat ≤ 57)

/-- Decimal value of a digit run (`int(octet_str, 10)`). -/
def octetVal (l : List Char) : Nat :=
  l.foldl (fun a c => 10 * a + (c.toNat - 48)) 0

/-- CPython `_parse_octet` validity: non-empty, all ASCII digits, at most
three of them, no leading zero, value at most 255. -/
def validOctet (l : List Char) : Bool :=
  !l.isEmpty && decide (l.length ≤ 3) && l.all isDigitChar &&
    (l.head? != some '0' || l == ['0']) && decide (octetVal l ≤ 255)

/-- CPython `_parse_octet`: the octet value, or failure. -/
def parseOctet (l : List Char) : Option Nat :=
  if validOctet l then some (octetVal l) else none

/-- Splitting a character list at every dot (CPython `str.split('.')`). -/
def splitOnDot : List Char → List (List Char)
  | [] => [[]]
  | c :: rest =>
    if c = '.' then [] :: splitOnDot rest
    else
      match splitOnDot rest with
      | [] => [[c]]
      | p :: ps => (c :: p) :: ps

/-- Inverse of `splitOnDot`: interleave the parts with dots. -/
def joinDots : List (List Char) → List Char
  | [] => []
  | [p] => p
  | p :: ps => p ++ '.' :: joinDots ps

/-- CPython `_ip_int_from_string` restricted to what the f-string
`f"{ip}/24"` lets through: exactly four dot-separated valid octets. -/
def parseIPv4 (s : String) : Option (Nat × Nat × Nat × Nat) :=
  match splitOnDot s.data with
  | [p1, p2, p3, p4] =>
    match parseOctet p1, parseOctet p2, parseOctet p3, parseOctet p4 with
    | some a, some b, some c, some d => some (a, b, c, d)
    | _, _, _, _ => none
  | _ => none

/-- Canonical dotted-quad rendering (CPython `str(IPv4Address)`). -/
def quadString (a b c d : Nat) : String :=
  ⟨(Nat.repr a).data ++ ('.' :: ((Nat.repr b).data ++ ('.' :: ((Nat.repr c).data ++
    ('.' :: (Nat.repr d).data)))))⟩

/-- Lines 56–67: compute the /24 broadcast address of `ip`
(`IPv4Network(f"{ip}/24", strict=False).broadcast_address`), falling back
to the global broadcast address on any parse failure. Total by
construction, mirroring the `except Exception` fallback. -/
def get_subnet_broadcast (ip : String) : String :=
  match parseIPv4 ip with
  | some (a, b, c, _) => quadString a b c 255
  | none => "255.255.255.255"

/-- A well-formed dotted-quad IPv4 string: four octet values in canonical
decimal form, dot-separated. -/
def isWellFormedQuad (s : String) : Prop :=
  ∃ a b c d, a ≤ 255 ∧ b ≤ 255 ∧ c ≤ 255 ∧ d ≤ 255 ∧ s = quadString a b c d

/-! ### Broadcast fix-up and configuration (lines 180–191) -/

/-- Lines 187–188: if the configured target is the global broadcast
address, substitute the subnet broadcast of the local address; otherwise
use the configured value unchanged. -/
def effectiveTarget (configured localIp : String) : String :=
  if configured = "255.255.255.255" then get_subnet_broadcast localIp else configured

/-- Lookup of a string field in the persisted JSON configuration record
(modelled as an association list). -/
def lookupStr (k : String) : List (String × String) → Option String
  | [] => none
  | (k0, v) :: rest => if k0 = k then some v else lookupStr k rest

/-- Python `dict.get(key, default)`. -/
def configGetD (config : List (String × String)) (key dflt : String) : String :=
  match lookupStr key config with
  | some v => v
  | none => dflt

/-- Line 180 composed with the fix-up: the ArtNet target actually used,
starting from `config.get("artnet_ip", "255.255.255.255")`. -/
def artnetTarget (config : List (String × String)) (localIp : String) : String :=
  effectiveTarget (configGetD config "artnet_ip" "255.255.255.255") localIp

/-! ### Streaming URI (lines 198–199) -/

/-- Whether the first list starts the second (pattern match at the head). -/
def leadsWith : List Char → List Char → Bool
  | [], _ => true
  | _ :: _, [] => false
  | p :: ps, c :: cs => p == c && leadsWith ps cs

set_option linter.unusedVariables false in
/-- Python `str.replace`: replace every non-overlapping occurrence of
`pat` by `rep`, scanning left to right (the hypothesis of the guard is
used only for termination). -/
def replaceAll (pat rep : List Char) : List Char → List Char
  | [] => []
  | c :: rest =>
    if h : pat ≠ [] ∧ leadsWith pat (c :: rest) = true then
      rep ++ replaceAll pat rep ((c :: rest).drop pat.length)
    else
      c :: replaceAll pat rep rest
termination_by l => l.length
decreasing_by
  · have hp : 0 < pat.length := List.length_pos.mpr h.1
    simp only [List.length_drop, List.length_cons]
    omega
  · simp only [List.length_cons]
    omega

/-- Occurrence test: does `pat` occur anywhere in the list? -/
def hasSub (pat : List Char) : List Char → Bool
  | [] => leadsWith pat []
  | c :: rest => leadsWith pat (c :: rest) || hasSub pat rest

/-- Lines 198–199: the streaming connection URI,
`config['server_url'].replace("http://", "ws://")` followed by
`/dmx?token=` and the device secret. Note the code replaces only the
literal substring `http://`. -/
def mkUri (server_url device_secret : String) : String :=
  (⟨replaceAll ("http://".data) ("ws://".data) server_url.data⟩ : String) ++
    "/dmx?token=" ++ device_secret

/-! ### Reconnect loop state machine (lines 203–244) -/

/-- Control state of the `while True` reconnect loop: about to call
`websockets.connect`, or inside the message loop. `terminated` is never
produced by any transition — it exists to state that no event ends the
process. -/
inductive StreamState
  | connecting
  | connected
  | terminated
deriving DecidableEq

/-- Events the loop reacts to: a successful handshake, a received message,
a `ConnectionClosed` exception, or any other exception. -/
inductive StreamEvent
  | connectOk
  | message (m : WsMessage)
  | connectionClosed
  | errorRaised
deriving DecidableEq

/-- One reaction of the loop: next control state plus the seconds slept
(`asyncio.sleep(5)` in both `except` handlers, nothing otherwise). -/
def streamStep : StreamState → StreamEvent → StreamState × Option Nat
  | .connecting, .connectOk => (.connected, none)
  | .connecting, .connectionClosed => (.connecting, some 5)
  | .connecting, .errorRaised => (.connecting, some 5)
  | .connected, .message _ => (.connected, none)
  | .connected, .connectionClosed => (.connecting, some 5)
  | .connected, .errorRaised => (.connecting, some 5)
  | s, _ => (s, none)

/-- The loop over a whole event trace, collecting the backoff sleeps in
order. -/
def runStream : StreamState → List StreamEvent → StreamState × List Nat
  | s, [] => (s, [])
  | s, e :: es =>
    let r := streamStep s e
    let rest := runStream r.1 es
    (rest.1, r.2.toList ++ rest.2)

/-! ### Frame decoder lemmas -/

/-- Length of the decoded frame: the code pads short frames to 512 but never
truncates long ones, so the frame length is `max (L - 2) 512`. -/
theorem decode_frame_spec (msg : List Nat) (h : 2 < msg.length) :
    ∃ u frame, decode msg = some (u, frame) ∧
      frame.length = max (msg.length - 2) 512 ∧
      (∀ i, i < msg.length - 2 → frame[i]? = msg[i + 2]?) ∧
      (∀ i, msg.length - 2 ≤ i → i < 512 → frame[i]? = some 0) := by
  have hdrop : (msg.drop 2).length = msg.length - 2 := by
    simp [List.length_drop]
  by_cases hlt : (msg.drop 2).length < 512
  · refine ⟨beU16 (msg.take 2), msg.drop 2 ++ List.replicate (512 - (msg.drop 2).length) 0,
      ?_, ?_, ?_, ?_⟩
    · simp only [decode, if_pos h, if_pos hlt]
    · simp only [List.length_append, List.length_replicate, hdrop]
      omega
    · intro i hi
      rw [List.getElem?_append_left (by omega), List.getElem?_drop]
      congr 1
      omega
    · intro i hge hi
      rw [List.getElem?_append_right (by omega), List.getElem?_replicate_of_lt (by omega)]
  · refine ⟨beU16 (msg.take 2), msg.drop 2, ?_, ?_, ?_, ?_⟩
    · simp only [decode, if_pos h, if_neg hlt]
    · rw [hdrop]
      omega
    · intro i hi
      rw [List.getElem?_drop]
      congr 1
      omega
    · intro i hge hi
      omega

set_option maxRecDepth 10000 in
/-- Claim C1 counterexample: a binary message of length 515 (513 data bytes)
is decoded to a frame of 513 entries, not 512 — the code pads short frames
but never truncates long ones, contradicting the claimed truncation to the
first 512 bytes. -/
theorem c1_truncation_counterexample :
    (decode (List.replicate 515 0)).map (fun p => p.2.length) = some 513 ∧
    (decode (List.replicate 515 0)).map (fun p => p.2.length) ≠ some 512 := by
  constructor
  · decide
  · decide

/-- Claim C1 (amended): for every byte sequence of length L > 2 received as a
binary message, decode produces a channel frame of `max (L-2) 512` entries:
entries 0..L-3 equal the corresponding input bytes after the 2-byte header,
any remaining entries (when L-2 < 512) are zero, and when L-2 > 512 the
extra bytes are kept — the frame is not truncated to 512. -/
theorem c1_decode_frame_amended (msg : List Nat) (h : 2 < msg.length) :
    ∃ u frame, decode msg = some (u, frame) ∧
      frame.length = max (msg.length - 2) 512 ∧
      (∀ i, i < msg.length - 2 → frame[i]? = msg[i + 2]?) ∧
      (∀ i, msg.length - 2 ≤ i → i < 512 → frame[i]? = some 0) :=
  decode_frame_spec msg h

/-- Witness for claim C1 (amended), at the concrete message `[0, 1, 2, 3]`. -/
theorem c1_decode_frame_amended_witness :
    2 < ([0, 1, 2, 3] : List Nat).length ∧
    (∃ u frame, decode [0, 1, 2, 3] = some (u, frame) ∧
      frame.length = max (([0, 1, 2, 3] : List Nat).length - 2) 512 ∧
      (∀ i, i < ([0, 1, 2, 3] : List Nat).length - 2 →
        frame[i]? = ([0, 1, 2, 3] : List Nat)[i + 2]?) ∧
      (∀ i, ([0, 1, 2, 3] : List Nat).length - 2 ≤ i → i < 512 → frame[i]? = some 0)) :=
  ⟨by decide, c1_decode_frame_amended [0, 1, 2, 3] (by decide)⟩

/-- Claim C6: every binary message of length ≤ 2 decodes to nothing, and
handling it leaves the engine state unchanged — no push, no registration. -/
theorem c6_short_frames_ignored (msg : List Nat) (h : msg.length ≤ 2) :
    decode msg = none ∧ ∀ s : EngineState, handleMessage s (.binary msg) = s := by
  have hnot : ¬ 2 < msg.length := by omega
  have hdec : decode msg = none := by
    simp only [decode, if_neg hnot]
  exact ⟨hdec, fun s => by simp only [handleMessage, hdec]⟩

/-- Witness for claim C6 at the concrete message `[7]` and the initial state. -/
theorem c6_short_frames_ignored_witness :
    decode [7] = none ∧ handleMessage initState (.binary [7]) = initState :=
  ⟨(c6_short_frames_ignored [7] (by decide)).1,
   (c6_short_frames_ignored [7] (by decide)).2 initState⟩

set_option maxRecDepth 10000 in
/-- Claim C7: the universe id is read from the first two bytes, big-endian
(so it is an unsigned 16-bit value whenever the input really consists of
bytes), and the spec example `[0x00, 0x01, 0xFF]` decodes to universe 1 with
frame 255 followed by 511 zeros. -/
theorem c7_big_endian_universe :
    (∀ b0 b1 : Nat, ∀ rest : List Nat, b0 < 256 → b1 < 256 →
      ∀ u frame, decode (b0 :: b1 :: rest) = some (u, frame) →
        u = 256 * b0 + b1 ∧ u < 65536) ∧
    decode [0, 1, 255] = some (1, 255 :: List.replicate 511 0) := by
  constructor
  · intro b0 b1 rest hb0 hb1 u frame hdec
    by_cases hlen : 2 < (b0 :: b1 :: rest).length
    · have htake : (b0 :: b1 :: rest).take 2 = [b0, b1] := rfl
      have hu : u = beU16 [b0, b1] := by
        simp only [decode, if_pos hlen, htake] at hdec
        split at hdec <;> · injection hdec with hp; injection hp with h1 h2; exact h1.symm
      have : beU16 [b0, b1] = 256 * b0 + b1 := by
        simp [beU16, List.foldl]
      rw [hu, this]
      omega
    · simp only [decode, if_neg hlen] at hdec
      exact Option.noConfusion hdec
  · decide

set_option maxRecDepth 10000 in
/-- Witness for claim C7, instantiating the big-endian part at the bytes
`0x00, 0x01` of the spec example. -/
theorem c7_big_endian_universe_witness :
    (1 : Nat) = 256 * 0 + 1 ∧ (1 : Nat) < 65536 :=
  c7_big_endian_universe.1 0 1 [255] (by decide) (by decide) 1
    (255 :: List.replicate 511 0) (by decide)

/-! ### Universe registry and push-order lemmas -/

/-- Resolving a universe never touches the push log. -/
theorem resolveChannel_pushes (s : EngineState) (u : Nat) :
    ((resolveChannel s u).2).pushes = s.pushes := by
  cases h : chanLookup u s.channels <;> simp [resolveChannel, h]

/-- After resolving `u`, the registry maps `u` to the returned handle. -/
theorem resolveChannel_lookup (s : EngineState) (u : Nat) :
    chanLookup u ((resolveChannel s u).2).channels = some (resolveChannel s u).1 := by
  cases h : chanLookup u s.channels <;> simp [resolveChannel, h, chanLookup]

/-- A cached handle makes resolution a pure read with no side effect. -/
theorem resolveChannel_of_lookup {s : EngineState} {u h0 : Nat}
    (h : chanLookup u s.channels = some h0) : resolveChannel s u = (h0, s) := by
  simp [resolveChannel, h]

/-- Each message appends exactly its own decoded push (if any) to the log. -/
theorem handleMessage_pushes (s : EngineState) (m : WsMessage) :
    (handleMessage s m).pushes = s.pushes ++ (msgPush m).toList := by
  cases m with
  | binary msg =>
    cases hdec : decode msg with
    | none => simp [handleMessage, msgPush, hdec]
    | some p =>
      obtain ⟨u, frame⟩ := p
      simp [handleMessage, msgPush, hdec, resolveChannel_pushes]
  | text t => simp [handleMessage, msgPush]

/-- The push log after a run is the initial log followed by the decoded
frames of the valid binary messages, in arrival order. -/
theorem run_pushes (s : EngineState) (msgs : List WsMessage) :
    (run s msgs).pushes = s.pushes ++ msgs.filterMap msgPush := by
  induction msgs generalizing s with
  | nil => simp [run]
  | cons m ms ih =>
    have : run s (m :: ms) = run (handleMessage s m) ms := rfl
    rw [this, ih, handleMessage_pushes]
    cases hm : msgPush m <;> simp [List.filterMap_cons, hm]

/-- Registered channels survive every message: handling a message never
removes or rebinds an existing registry entry. -/
theorem handleMessage_lookup_mono {s : EngineState} {u h0 : Nat}
    (h : chanLookup u s.channels = some h0) (m : WsMessage) :
    chanLookup u (handleMessage s m).channels = some h0 := by
  cases m with
  | text t => simpa [handleMessage] using h
  | binary msg =>
    cases hdec : decode msg with
    | none => simpa [handleMessage, hdec] using h
    | some p =>
      obtain ⟨u0, frame⟩ := p
      simp only [handleMessage, hdec]
      cases hl : chanLookup u0 s.channels with
      | some h1 => simpa [resolveChannel, hl] using h
      | none =>
        have hne : u0 ≠ u := by
          intro he
          rw [he, h] at hl
          exact Option.noConfusion hl
        simp [resolveChannel, hl, chanLookup, hne, h]

/-- Registered channels survive a whole run. -/
theorem run_lookup_mono {s : EngineState} {u h0 : Nat}
    (h : chanLookup u s.channels = some h0) (msgs : List WsMessage) :
    chanLookup u (run s msgs).channels = some h0 := by
  induction msgs generalizing s with
  | nil => exact h
  | cons m ms ih => exact ih (handleMessage_lookup_mono h m)


/-- The invariant holds at startup. -/
theorem regInv_init : RegInv initState := by
  intro u
  constructor
  · intro _
    rfl
  · exact Nat.zero_le 1

/-- The invariant is preserved by every message. -/
theorem regInv_handleMessage {s : EngineState} (hs : RegInv s) (m : WsMessage) :
    RegInv (handleMessage s m) := by
  cases m with
  | text t => simpa [handleMessage] using hs
  | binary msg =>
    cases hdec : decode msg with
    | none => simpa [handleMessage, hdec] using hs
    | some p =>
      obtain ⟨u0, frame⟩ := p
      simp only [handleMessage, hdec]
      cases hl : chanLookup u0 s.channels with
      | some h1 =>
        intro u
        simpa [resolveChannel, hl, countCreated] using hs u
      | none =>
        intro u
        by_cases hu : u0 = u
        · subst hu
          have hc0 : countCreated u0 s = 0 := (hs u0).1 hl
          constructor
          · intro hnone
            simp [resolveChannel, hl, chanLookup] at hnone
          · have hc0' : ((s.creations).filter (fun e => e.1 == u0)).length = 0 := hc0
            simp [resolveChannel, hl, countCreated, List.filter_append, hc0']
        · have hcount : countCreated u { s with
              channels := (u0, s.nextHandle) :: s.channels,
              nextHandle := s.nextHandle + 1,
              creations := s.creations ++ [(u0, 1, 512)] } = countCreated u s := by
            simp [countCreated, List.filter_append, hu]
          constructor
          · intro hnone
            have : chanLookup u s.channels = none := by
              simpa [resolveChannel, hl, chanLookup, hu] using hnone
            have := (hs u).1 this
            simpa [resolveChannel, hl, countCreated, List.filter_append, hu] using this
          · simpa [resolveChannel, hl, countCreated, List.filter_append, hu] using (hs u).2

/-- The invariant is preserved by a whole run. -/
theorem regInv_run {s : EngineState} (hs : RegInv s) (msgs : List WsMessage) :
    RegInv (run s msgs) := by
  induction msgs generalizing s with
  | nil => exact hs
  | cons m ms ih => exact ih (regInv_handleMessage hs m)

/-- Claim C5: the universe registry is idempotent — resolving the same id
twice returns the identical handle and performs no second side effect; the
universe output (start 1, width 512) is created exactly once, on the first
resolution; and a registry entry, once present, is never removed or rebound
for the remainder of the run. -/
theorem c5_registry :
    (∀ s u, resolveChannel (resolveChannel s u).2 u =
      ((resolveChannel s u).1, (resolveChannel s u).2)) ∧
    (∀ s u, chanLookup u s.channels = none →
      ((resolveChannel s u).2).creations = s.creations ++ [(u, 1, 512)]) ∧
    (∀ s u h, chanLookup u s.channels = some h → resolveChannel s u = (h, s)) ∧
    (∀ msgs u, countCreated u (run initState msgs) ≤ 1) ∧
    (∀ s msgs u h, chanLookup u s.channels = some h →
      chanLookup u (run s msgs).channels = some h) := by
  refine ⟨?_, ?_, ?_, ?_, ?_⟩
  · intro s u
    exact resolveChannel_of_lookup (resolveChannel_lookup s u)
  · intro s u h
    simp [resolveChannel, h]
  · intro s u h hl
    exact resolveChannel_of_lookup hl
  · intro msgs u
    exact ((regInv_run regInv_init msgs) u).2
  · intro s msgs u h hl
    exact run_lookup_mono hl msgs

/-- Witness for claim C5 at concrete states, universes and messages. -/
theorem c5_registry_witness :
    resolveChannel (resolveChannel initState 3).2 3 =
      ((resolveChannel initState 3).1, (resolveChannel initState 3).2) ∧
    ((resolveChannel initState 7).2).creations = initState.creations ++ [(7, 1, 512)] ∧
    resolveChannel (resolveChannel initState 5).2 5 = (0, (resolveChannel initState 5).2) ∧
    countCreated 9 (run initState [WsMessage.text "info"]) ≤ 1 ∧
    chanLookup 5 (run (resolveChannel initState 5).2 [WsMessage.text "info"]).channels =
      some 0 :=
  ⟨c5_registry.1 initState 3,
   c5_registry.2.1 initState 7 (by decide),
   c5_registry.2.2.1 (resolveChannel initState 5).2 5 0 (by decide),
   c5_registry.2.2.2.1 [WsMessage.text "info"] 9,
   c5_registry.2.2.2.2 (resolveChannel initState 5).2 [WsMessage.text "info"] 5 0 (by decide)⟩

/-- Claim C9: within one connection, the pushes recorded for a universe are
exactly the decoded frames of the binary messages for that universe, in
arrival order — dispatch is synchronous per message and never reorders. -/
theorem c9_push_order (msgs : List WsMessage) (u : Nat) :
    (run initState msgs).pushes = msgs.filterMap msgPush ∧
    ((run initState msgs).pushes).filter (fun p => p.1 == u) =
      (msgs.filterMap msgPush).filter (fun p => p.1 == u) := by
  have h : (run initState msgs).pushes = msgs.filterMap msgPush := by
    rw [run_pushes initState msgs, show initState.pushes = [] from rfl, List.nil_append]
  exact ⟨h, by rw [h]⟩

/-! ### Streaming URI lemmas -/

/-- A pattern always matches at the head of itself followed by anything. -/
theorem leadsWith_append_self (pat l : List Char) : leadsWith pat (pat ++ l) = true := by
  induction pat with
  | nil => rfl
  | cons p ps ih => simp [leadsWith, ih]

/-- `replaceAll` leaves a list without any occurrence of the pattern
unchanged. -/
theorem replaceAll_of_hasSub_false {pat : List Char} (rep : List Char) :
    ∀ l : List Char, hasSub pat l = false → replaceAll pat rep l = l := by
  intro l
  induction l with
  | nil =>
    intro _
    simp [replaceAll]
  | cons c rest ih =>
    intro h
    have hparts : leadsWith pat (c :: rest) = false ∧ hasSub pat rest = false := by
      constructor
      · cases hx : leadsWith pat (c :: rest)
        · rfl
        · rw [hasSub, hx, Bool.true_or] at h
          exact Bool.noConfusion h
      · cases hx : hasSub pat rest
        · rfl
        · rw [hasSub, hx, Bool.or_true] at h
          exact Bool.noConfusion h
    have hcond : ¬ (pat ≠ [] ∧ leadsWith pat (c :: rest) = true) := by
      intro hc
      rw [hparts.1] at hc
      exact Bool.noConfusion hc.2
    rw [replaceAll, dif_neg hcond]
    exact congrArg (List.cons c) (ih hparts.2)

/-- `replaceAll` on a list starting with the (non-empty) pattern substitutes
the replacement and continues after it. -/
theorem replaceAll_cons_match (p : Char) (ps rep l : List Char) :
    replaceAll (p :: ps) rep ((p :: ps) ++ l) = rep ++ replaceAll (p :: ps) rep l := by
  have hcond : (p :: ps) ≠ [] ∧ leadsWith (p :: ps) (p :: (ps ++ l)) = true :=
    ⟨List.cons_ne_nil p ps, leadsWith_append_self (p :: ps) l⟩
  have hdrop : (ps ++ l).drop ps.length = l := List.drop_left ps l
  show replaceAll (p :: ps) rep (p :: (ps ++ l)) = rep ++ replaceAll (p :: ps) rep l
  rw [replaceAll, dif_pos hcond]
  simp [hdrop]

/-- Claim C4 counterexample: for the https server URL `https://h` with
device secret `s`, the code produces `https://h/dmx?token=s` — the scheme
is NOT rewritten to `wss`, because line 198 only replaces the literal
substring `http://`. -/
theorem c4_scheme_counterexample :
    mkUri "https://h" "s" = "https://h/dmx?token=s" ∧
    mkUri "https://h" "s" ≠ "wss://h/dmx?token=s" := by
  constructor
  · simp +decide [mkUri, replaceAll, leadsWith]
  · simp +decide [mkUri, replaceAll, leadsWith]

/-- Claim C4 (amended): the streaming URI is the server URL with every
occurrence of the literal substring `http://` replaced by `ws://`,
followed by `/dmx?token=` and the device secret; an `https://` URL is left
unchanged (it is never rewritten to `wss://`). Stated for URLs whose
remainder contains no further occurrence of `http://`. -/
theorem c4_uri_amended (rest secret : String)
    (h : hasSub ("http://".data) rest.data = false) :
    mkUri ("http://" ++ rest) secret = "ws://" ++ rest ++ "/dmx?token=" ++ secret ∧
    mkUri ("https://" ++ rest) secret = "https://" ++ rest ++ "/dmx?token=" ++ secret := by
  have hpat : ("http://" : String).data = ['h', 't', 't', 'p', ':', '/', '/'] := rfl
  constructor
  · apply String.ext
    simp only [mkUri, String.data_append]
    have hsplit : ("http://" : String).data ++ rest.data =
        ('h' :: ['t', 't', 'p', ':', '/', '/']) ++ rest.data := by rw [hpat]
    rw [hsplit, replaceAll_cons_match, replaceAll_of_hasSub_false _ _ (by rw [← hpat]; exact h)]
  · apply String.ext
    simp only [mkUri, String.data_append]
    have hno : hasSub (("http://" : String).data)
        (("https://" : String).data ++ rest.data) = false := by
      rw [hpat]
      show hasSub _ ('h' :: 't' :: 't' :: 'p' :: 's' :: ':' :: '/' :: '/' :: rest.data) = false
      simp only [hasSub, leadsWith]
      simp [h, hpat]
    rw [replaceAll_of_hasSub_false _ _ hno]

/-- Witness for claim C4 (amended) at a concrete host remainder and secret. -/
theorem c4_uri_amended_witness :
    hasSub ("http://".data) ("192.168.178.50:8000".data) = false ∧
    (mkUri ("http://" ++ "192.168.178.50:8000") "tok" =
        "ws://" ++ "192.168.178.50:8000" ++ "/dmx?token=" ++ "tok" ∧
      mkUri ("https://" ++ "192.168.178.50:8000") "tok" =
        "https://" ++ "192.168.178.50:8000" ++ "/dmx?token=" ++ "tok") :=
  ⟨by decide, c4_uri_amended "192.168.178.50:8000" "tok" (by decide)⟩

/-! ### Broadcast fix-up theorems -/

/-- Claim C2: before the first connection attempt, the target is rewritten
to the subnet broadcast of the local address exactly when the configured
value is the global broadcast address, and is used unchanged otherwise;
the two spec examples hold. -/
theorem c2_broadcast_fixup :
    (∀ cfg ip : String, cfg = "255.255.255.255" →
      effectiveTarget cfg ip = get_subnet_broadcast ip) ∧
    (∀ cfg ip : String, cfg ≠ "255.255.255.255" → effectiveTarget cfg ip = cfg) ∧
    effectiveTarget "255.255.255.255" "192.168.1.20" = "192.168.1.255" ∧
    effectiveTarget "10.0.0.99" "192.168.1.20" = "10.0.0.99" := by
  refine ⟨?_, ?_, ?_, ?_⟩
  · intro cfg ip hc
    simp [effectiveTarget, hc]
  · intro cfg ip hc
    simp [effectiveTarget, hc]
  · decide
  · decide

/-- Witness for claim C2 at concrete configured values and local address. -/
theorem c2_broadcast_fixup_witness :
    effectiveTarget "255.255.255.255" "10.0.0.1" = get_subnet_broadcast "10.0.0.1" ∧
    effectiveTarget "10.0.0.99" "10.0.0.1" = "10.0.0.99" :=
  ⟨c2_broadcast_fixup.1 "255.255.255.255" "10.0.0.1" (by decide),
   c2_broadcast_fixup.2.1 "10.0.0.99" "10.0.0.1" (by decide)⟩

/-- Claim C10: a configuration record without the `artnet_ip` field does
not fail — `config.get("artnet_ip", "255.255.255.255")` defaults to the
global broadcast address, so the subnet fix-up applies exactly as if it had
been configured explicitly. -/
theorem c10_missing_artnet_ip (config : List (String × String)) (ip : String)
    (h : lookupStr "artnet_ip" config = none) :
    artnetTarget config ip = get_subnet_broadcast ip ∧
    artnetTarget config ip = effectiveTarget "255.255.255.255" ip := by
  constructor
  · simp [artnetTarget, configGetD, h, effectiveTarget]
  · simp [artnetTarget, configGetD, h]

/-- Witness for claim C10: a config with only `server_url` and no
`artnet_ip` field. -/
theorem c10_missing_artnet_ip_witness :
    artnetTarget [("server_url", "http://core")] "10.0.0.1" =
      get_subnet_broadcast "10.0.0.1" ∧
    artnetTarget [("server_url", "http://core")] "10.0.0.1" =
      effectiveTarget "255.255.255.255" "10.0.0.1" :=
  c10_missing_artnet_ip [("server_url", "http://core")] "10.0.0.1" (by decide)

/-! ### Reconnect loop theorems -/

/-- Claim C8: after a connection closure or any error the loop sleeps
exactly 5 seconds and re-enters the connecting state, unconditionally: no
transition reaches a terminated state, every sleep the loop ever performs
is 5 seconds (flat backoff), and after any number n of consecutive
failures the loop is still connecting with n flat 5-second sleeps (no
retry limit). -/
theorem c8_reconnect_policy :
    (streamStep StreamState.connected StreamEvent.connectionClosed =
        (StreamState.connecting, some 5) ∧
      streamStep StreamState.connected StreamEvent.errorRaised =
        (StreamState.connecting, some 5) ∧
      streamStep StreamState.connecting StreamEvent.errorRaised =
        (StreamState.connecting, some 5)) ∧
    (∀ s e, s ≠ StreamState.terminated → (streamStep s e).1 ≠ StreamState.terminated) ∧
    (∀ s events d, d ∈ (runStream s events).2 → d = 5) ∧
    (∀ n, runStream StreamState.connecting (List.replicate n StreamEvent.errorRaised) =
      (StreamState.connecting, List.replicate n 5)) := by
  refine ⟨⟨rfl, rfl, rfl⟩, ?_, ?_, ?_⟩
  · intro s e hs
    cases s <;> cases e <;> simp_all [streamStep]
  · intro s events
    induction events generalizing s with
    | nil =>
      intro d hd
      simp [runStream] at hd
    | cons e es ih =>
      intro d hd
      simp only [runStream, List.mem_append] at hd
      rcases hd with hd | hd
      · cases s <;> cases e <;> simp_all [streamStep]
      · exact ih _ d hd
  · intro n
    induction n with
    | zero => rfl
    | succ k ih =>
      simp only [List.replicate_succ, runStream, streamStep, ih]
      rfl

/-- Witness for claim C8: the terminated state is unreachable from the
connected state, and a concrete delay drawn from a failure trace is 5. -/
theorem c8_reconnect_policy_witness :
    (streamStep StreamState.connected StreamEvent.connectOk).1 ≠
      StreamState.terminated ∧
    (5 : Nat) = 5 :=
  ⟨c8_reconnect_policy.2.1 StreamState.connected StreamEvent.connectOk (by decide),
   c8_reconnect_policy.2.2.1 StreamState.connecting [StreamEvent.errorRaised] 5 (by decide)⟩

/-! ### Subnet broadcast theorems -/

set_option maxRecDepth 10000 in
/-- Parsing the canonical decimal form of a byte value succeeds and returns
that value (checked exhaustively). -/
theorem parseOctet_repr_fin : ∀ n : Fin 256, parseOctet ((Nat.repr n.val).data) = some n.val := by
  decide

set_option maxRecDepth 10000 in
/-- The decimal form of a byte value contains no dot. -/
theorem dot_notin_repr_fin : ∀ n : Fin 256, '.' ∉ ((Nat.repr n.val).data) := by
  decide

set_option maxRecDepth 10000 in
theorem repr_digit1 : ∀ i : Fin 10, (Nat.repr i.val).data = [Char.ofNat (48 + i.val)] := by
  decide

set_option maxRecDepth 10000 in
theorem repr_digit2 : ∀ i j : Fin 10, i.val ≠ 0 →
    (Nat.repr (10 * i.val + j.val)).data = [Char.ofNat (48 + i.val), Char.ofNat (48 + j.val)] := by
  decide

set_option maxRecDepth 100000 in
theorem repr_digit3 : ∀ i j k : Fin 10, i.val ≠ 0 → 100 * i.val + 10 * j.val + k.val ≤ 255 →
    (Nat.repr (100 * i.val + 10 * j.val + k.val)).data =
      [Char.ofNat (48 + i.val), Char.ofNat (48 + j.val), Char.ofNat (48 + k.val)] := by
  decide

theorem char_eq_ofNat_sub {a : Char} (h1 : 48 ≤ a.toNat) :
    Char.ofNat (48 + (a.toNat - 48)) = a := by
  have h : 48 + (a.toNat - 48) = a.toNat := by omega
  rw [h, Char.ofNat_toNat]

theorem char_toNat_ne_48 {a : Char} (hne : a ≠ '0') : a.toNat ≠ 48 := by
  intro he
  apply hne
  rw [← Char.ofNat_toNat a, he]

theorem validOctet_parts {l : List Char} (h : validOctet l = true) :
    l ≠ [] ∧ l.length ≤ 3 ∧ (∀ c ∈ l, isDigitChar c = true) ∧
      (l.head? ≠ some '0' ∨ l = ['0']) ∧ octetVal l ≤ 255 := by
  simp only [validOctet, Bool.and_eq_true, Bool.or_eq_true, decide_eq_true_eq,
    List.all_eq_true, bne_iff_ne, beq_iff_eq, Bool.not_eq_true'] at h
  obtain ⟨⟨⟨⟨hemp, hlen⟩, hdig⟩, hzero⟩, hval⟩ := h
  refine ⟨?_, hlen, hdig, hzero, hval⟩
  intro he
  subst he
  simp at hemp

theorem parseOctet_canonical {l : List Char} {n : Nat} (h : parseOctet l = some n) :
    n ≤ 255 ∧ l = (Nat.repr n).data := by
  unfold parseOctet at h
  by_cases hv : validOctet l = true
  · rw [if_pos hv] at h
    injection h with hn
    subst hn
    obtain ⟨hne, hlen, hdig, hzero, hval⟩ := validOctet_parts hv
    match l, hne with
    | [a], _ =>
      have hda := hdig a (by simp)
      simp only [isDigitChar, Bool.and_eq_true, decide_eq_true_eq] at hda
      have hov : octetVal [a] = a.toNat - 48 := by
        simp [octetVal]
      constructor
      · rw [hov]; omega
      · rw [hov]
        have := repr_digit1 ⟨a.toNat - 48, by omega⟩
        simp only at this
        rw [this, char_eq_ofNat_sub hda.1]
    | [a, b], _ =>
      have hda := hdig a (by simp)
      have hdb := hdig b (by simp)
      simp only [isDigitChar, Bool.and_eq_true, decide_eq_true_eq] at hda hdb
      have hane : a ≠ '0' := by
        rcases hzero with hz | hz
        · intro he; exact hz (by rw [he]; rfl)
        · exact absurd hz (by simp)
      have ha48 : a.toNat ≠ 48 := char_toNat_ne_48 hane
      have hov : octetVal [a, b] = 10 * (a.toNat - 48) + (b.toNat - 48) := by
        simp [octetVal]
      constructor
      · rw [hov]; omega
      · rw [hov]
        have := repr_digit2 ⟨a.toNat - 48, by omega⟩ ⟨b.toNat - 48, by omega⟩ (by simp; omega)
        simp only at this
        rw [this, char_eq_ofNat_sub hda.1, char_eq_ofNat_sub hdb.1]
    | [a, b, c], _ =>
      have hda := hdig a (by simp)
      have hdb := hdig b (by simp)
      have hdc := hdig c (by simp)
      simp only [isDigitChar, Bool.and_eq_true, decide_eq_true_eq] at hda hdb hdc
      have hane : a ≠ '0' := by
        rcases hzero with hz | hz
        · intro he; exact hz (by rw [he]; rfl)
        · exact absurd hz (by simp)
      have ha48 : a.toNat ≠ 48 := char_toNat_ne_48 hane
      have hov : octetVal [a, b, c] =
          100 * (a.toNat - 48) + 10 * (b.toNat - 48) + (c.toNat - 48) := by
        simp [octetVal]
        ring
      constructor
      · rw [hov]; omega
      · rw [hov]
        have := repr_digit3 ⟨a.toNat - 48, by omega⟩ ⟨b.toNat - 48, by omega⟩
          ⟨c.toNat - 48, by omega⟩ (by simp; omega) (by simp; rw [hov] at hval; omega)
        simp only at this
        rw [this, char_eq_ofNat_sub hda.1, char_eq_ofNat_sub hdb.1, char_eq_ofNat_sub hdc.1]
    | a :: b :: c :: d :: rest, _ =>
      exfalso
      simp at hlen
  · rw [if_neg hv] at h
    exact Option.noConfusion h

theorem splitOnDot_ne_nil (l : List Char) : splitOnDot l ≠ [] := by
  induction l with
  | nil => simp [splitOnDot]
  | cons c rest ih =>
    by_cases hc : c = '.'
    · simp [splitOnDot, hc]
    · cases hps : splitOnDot rest with
      | nil => simp [splitOnDot, hc, hps]
      | cons q qs => simp [splitOnDot, hc, hps]

theorem splitOnDot_no_dot {l : List Char} (h : '.' ∉ l) : splitOnDot l = [l] := by
  induction l with
  | nil => rfl
  | cons c rest ih =>
    simp only [List.mem_cons, not_or] at h
    have hc : ¬ c = '.' := fun he => h.1 he.symm
    have hr : splitOnDot rest = [rest] := ih h.2
    simp [splitOnDot, hc, hr]

theorem splitOnDot_append {l : List Char} (r : List Char) (h : '.' ∉ l) :
    splitOnDot (l ++ '.' :: r) = l :: splitOnDot r := by
  induction l with
  | nil => simp [splitOnDot]
  | cons c rest ih =>
    simp only [List.mem_cons, not_or] at h
    have hc : ¬ c = '.' := fun he => h.1 he.symm
    have hr := ih h.2
    cases hps : splitOnDot (rest ++ '.' :: r) with
    | nil => exact absurd hps (splitOnDot_ne_nil _)
    | cons q qs =>
      rw [hps] at hr
      injection hr with hq hqs
      simp [splitOnDot, hc, hps, hq, hqs]

theorem joinDots_splitOnDot (l : List Char) : joinDots (splitOnDot l) = l := by
  induction l with
  | nil => rfl
  | cons c rest ih =>
    by_cases hc : c = '.'
    · subst hc
      cases hps : splitOnDot rest with
      | nil => exact absurd hps (splitOnDot_ne_nil rest)
      | cons q qs =>
        rw [hps] at ih
        simp [splitOnDot, joinDots, hps, ih]
    · cases hps : splitOnDot rest with
      | nil => exact absurd hps (splitOnDot_ne_nil rest)
      | cons q qs =>
        rw [hps] at ih
        have hj : joinDots ((c :: q) :: qs) = c :: joinDots (q :: qs) := by
          cases qs <;> simp [joinDots]
        simp [splitOnDot, hc, hps, hj, ih]

theorem parseOctet_repr {n : Nat} (h : n ≤ 255) : parseOctet ((Nat.repr n).data) = some n :=
  parseOctet_repr_fin ⟨n, by omega⟩

theorem dot_notin_repr {n : Nat} (h : n ≤ 255) : '.' ∉ (Nat.repr n).data :=
  dot_notin_repr_fin ⟨n, by omega⟩

theorem parseIPv4_quadString {a b c d : Nat}
    (ha : a ≤ 255) (hb : b ≤ 255) (hc : c ≤ 255) (hd : d ≤ 255) :
    parseIPv4 (quadString a b c d) = some (a, b, c, d) := by
  have hsplit : splitOnDot ((quadString a b c d).data) =
      [(Nat.repr a).data, (Nat.repr b).data, (Nat.repr c).data, (Nat.repr d).data] := by
    show splitOnDot ((Nat.repr a).data ++ ('.' :: ((Nat.repr b).data ++ ('.' ::
      ((Nat.repr c).data ++ ('.' :: (Nat.repr d).data)))))) = _
    rw [splitOnDot_append _ (dot_notin_repr ha), splitOnDot_append _ (dot_notin_repr hb),
      splitOnDot_append _ (dot_notin_repr hc), splitOnDot_no_dot (dot_notin_repr hd)]
  unfold parseIPv4
  rw [hsplit]
  simp only [parseOctet_repr ha, parseOctet_repr hb, parseOctet_repr hc, parseOctet_repr hd]

theorem parseIPv4_complete {s : String} {a b c d : Nat}
    (h : parseIPv4 s = some (a, b, c, d)) :
    a ≤ 255 ∧ b ≤ 255 ∧ c ≤ 255 ∧ d ≤ 255 ∧ s = quadString a b c d := by
  unfold parseIPv4 at h
  split at h
  case h_2 => exact Option.noConfusion h
  case h_1 p1 p2 p3 p4 heq =>
    split at h
    case h_2 => exact Option.noConfusion h
    case h_1 a0 b0 c0 d0 h1 h2 h3 h4 =>
      injection h with hq
      obtain ⟨rfl, rfl, rfl, rfl⟩ : a0 = a ∧ b0 = b ∧ c0 = c ∧ d0 = d := by
        constructor
        · exact congrArg Prod.fst hq
        constructor
        · exact congrArg (fun q => q.2.1) hq
        constructor
        · exact congrArg (fun q => q.2.2.1) hq
        · exact congrArg (fun q => q.2.2.2) hq
      obtain ⟨ha, hp1⟩ := parseOctet_canonical h1
      obtain ⟨hb, hp2⟩ := parseOctet_canonical h2
      obtain ⟨hc, hp3⟩ := parseOctet_canonical h3
      obtain ⟨hd, hp4⟩ := parseOctet_canonical h4
      refine ⟨ha, hb, hc, hd, ?_⟩
      apply String.ext
      have hjoin := joinDots_splitOnDot s.data
      rw [heq] at hjoin
      have : joinDots [p1, p2, p3, p4] =
          p1 ++ ('.' :: (p2 ++ ('.' :: (p3 ++ ('.' :: p4))))) := by
        simp [joinDots]
      rw [this] at hjoin
      rw [← hjoin, hp1, hp2, hp3, hp4]
      rfl

theorem dot_mem_quadString (a b c d : Nat) : '.' ∈ (quadString a b c d).data := by
  show '.' ∈ (Nat.repr a).data ++ ('.' :: ((Nat.repr b).data ++ ('.' ::
    ((Nat.repr c).data ++ ('.' :: (Nat.repr d).data)))))
  simp

theorem not_wellFormed_host : ¬ isWellFormedQuad "host" := by
  rintro ⟨a, b, c, d, -, -, -, -, hs⟩
  have hdot := dot_mem_quadString a b c d
  rw [← hs] at hdot
  exact absurd hdot (by decide)

/-- Claim C3: for every well-formed dotted-quad IPv4 string `a.b.c.d` the
function returns `a.b.c.255`; for every malformed input it returns the
global broadcast address; and the spec example holds. (The function is a
total Lean function, so it can never raise.) -/
theorem c3_subnet_broadcast :
    (∀ a b c d : Nat, a ≤ 255 → b ≤ 255 → c ≤ 255 → d ≤ 255 →
      get_subnet_broadcast (quadString a b c d) = quadString a b c 255) ∧
    (∀ s : String, ¬ isWellFormedQuad s →
      get_subnet_broadcast s = "255.255.255.255") ∧
    get_subnet_broadcast "192.168.178.50" = "192.168.178.255" := by
  refine ⟨?_, ?_, by decide⟩
  · intro a b c d ha hb hc hd
    unfold get_subnet_broadcast
    rw [parseIPv4_quadString ha hb hc hd]
  · intro s hwf
    unfold get_subnet_broadcast
    cases hp : parseIPv4 s with
    | none => rfl
    | some q =>
      obtain ⟨a, b, c, d⟩ := q
      obtain ⟨ha, hb, hc, hd, hs⟩ := parseIPv4_complete hp
      exact absurd ⟨a, b, c, d, ha, hb, hc, hd, hs⟩ hwf

/-- Witness for claim C3 at the quad 10.0.0.1 and the malformed string
`host`. -/
theorem c3_subnet_broadcast_witness :
    get_subnet_broadcast (quadString 10 0 0 1) = quadString 10 0 0 255 ∧
    get_subnet_broadcast "host" = "255.255.255.255" :=
  ⟨c3_subnet_broadcast.1 10 0 0 1 (by decide) (by decide) (by decide) (by decide),
   c3_subnet_broadcast.2.1 "host" not_wellFormed_host⟩
